import Mathlib

/-!
Verification of the tinygba tile/VRAM layer (src/tiles.go) and the glyph
compositor of the tiled-keyboard example, against the natural-language
specification.

Every register or memory store in the Go source goes through a volatile
16-bit write (`mem16(addr).Set(v)` or a named register's `Set`). We embed
each Go function as a pure function returning the ordered list of 16-bit
writes it performs; a write targets either a named hardware register or a
byte address in the flat address space (palette RAM at 0x05000000, VRAM at
0x06000000). Memory is modelled byte-addressed (`Nat → Nat`); applying a
16-bit write stores the low byte at the address and the high byte at the
next address, exactly as the little-endian hardware does. Machine-integer
overflow is made explicit with `% 2^w` where the Go uint8/uint16 arithmetic
can wrap.
-/

namespace TinyGBA

/-- Generic bit lemma: the bits of `b * 2 ^ n + a` for `a < 2 ^ n` are the
bits of `a` below position `n` and the bits of `b` from position `n` up. -/
theorem testBit_mul_pow_add (b n a i : Nat) (h : a < 2 ^ n) :
    (b * 2 ^ n + a).testBit i = if i < n then a.testBit i else b.testBit (i - n) := by
  rcases Nat.lt_or_ge i n with hi | hi
  · rw [if_pos hi]
    rw [Nat.testBit_to_div_mod, Nat.testBit_to_div_mod]
    have hsplit : 2 ^ n = 2 ^ i * 2 ^ (n - i) := by
      rw [← Nat.pow_add]
      congr 1
      omega
    have hdiv : (b * 2 ^ n + a) / 2 ^ i = a / 2 ^ i + b * 2 ^ (n - i) := by
      rw [hsplit]
      have hcomm : b * (2 ^ i * 2 ^ (n - i)) + a = a + 2 ^ i * (b * 2 ^ (n - i)) := by ring
      rw [hcomm, Nat.add_mul_div_left _ _ (Nat.pos_pow_of_pos i (by norm_num))]
    rw [hdiv]
    have h2 : 2 ^ (n - i) = 2 * 2 ^ (n - i - 1) := by
      rw [← Nat.pow_succ']
      congr 1
      omega
    rw [h2]
    have h3 : b * (2 * 2 ^ (n - i - 1)) = 2 * (b * 2 ^ (n - i - 1)) := by ring
    rw [h3]
    have h4 : (a / 2 ^ i + 2 * (b * 2 ^ (n - i - 1))) % 2 = a / 2 ^ i % 2 := by omega
    rw [h4]
  · rw [if_neg (by omega)]
    rw [Nat.testBit_to_div_mod, Nat.testBit_to_div_mod]
    have hsplit : 2 ^ i = 2 ^ n * 2 ^ (i - n) := by
      rw [← Nat.pow_add]
      congr 1
      omega
    have hdiv : (b * 2 ^ n + a) / 2 ^ i = b / 2 ^ (i - n) := by
      rw [hsplit, ← Nat.div_div_eq_div_mul]
      have hcomm : b * 2 ^ n + a = a + 2 ^ n * b := by ring
      rw [hcomm, Nat.add_mul_div_left _ _ (Nat.pos_pow_of_pos n (by norm_num)),
        Nat.div_eq_of_lt h, Nat.zero_add]
    rw [hdiv]

/-- Generic bit lemma: OR-ing a value below `2 ^ n` with a value shifted left
by `n` is plain addition (the bit ranges are disjoint). -/
theorem lor_shiftLeft_eq_add (a b n : Nat) (h : a < 2 ^ n) :
    a ||| (b <<< n) = b * 2 ^ n + a := by
  apply Nat.eq_of_testBit_eq
  intro i
  rw [Nat.testBit_or, Nat.testBit_shiftLeft, testBit_mul_pow_add b n a i h]
  rcases Nat.lt_or_ge i n with hi | hi
  · rw [if_pos hi]
    have hd : decide (i ≥ n) = false := by simp; omega
    rw [hd]
    simp
  · rw [if_neg (by omega)]
    have hd : decide (i ≥ n) = true := by simp [hi]
    rw [hd]
    have ha : a.testBit i = false :=
      Nat.testBit_lt_two_pow (lt_of_lt_of_le h (Nat.pow_le_pow_right (by norm_num) hi))
    rw [ha]
    simp

/-- Masking with `511 = 2 ^ 9 - 1` is reduction modulo `512`. -/
theorem and_511_eq_mod (x : Nat) : x &&& 511 = x % 512 := by
  apply Nat.eq_of_testBit_eq
  intro i
  have h511 : (511 : Nat) = 2 ^ 9 - 1 := by norm_num
  have h512 : (512 : Nat) = 2 ^ 9 := by norm_num
  rw [Nat.testBit_and, h511, h512, Nat.testBit_two_pow_sub_one, Nat.testBit_mod_two_pow]
  rw [Bool.and_comm]

/-- Target of one volatile 16-bit write: a named hardware register of the
display subsystem, or a byte address in the flat memory space. -/
inductive Target where
  | dispcnt : Target
  | bgcnt : Nat → Target
  | hofs : Nat → Target
  | vofs : Nat → Target
  | mem : Nat → Target
deriving DecidableEq

/-- One 16-bit write: target plus value. -/
abbrev Wr := Target × Nat

/-- Base byte address of background palette RAM (`memPAL` in tiles.go). -/
def memPAL : Nat := 0x05000000

/-- Base byte address of VRAM (`memVRAM` in tiles.go). -/
def memVRAM : Nat := 0x06000000

/-- Embedding of `ConfigureLayers` (tiles.go): builds a DISPCNT value with
bit `8 + l` set for each requested layer `l` (uint16 arithmetic) and performs
a single write of it to DISPCNT. Mode bits 0-2 stay zero (Mode 0). -/
def ConfigureLayers (layers : List Nat) : List Wr :=
  [(Target.dispcnt, layers.foldl (fun bits l => bits ||| ((1 <<< (8 + l)) % 65536)) 0)]

/-- Embedding of `SetScroll` (tiles.go): masks both coordinates to 9 bits and
writes BGxHOFS then BGxVOFS for the matched layer; the Go switch has no
default case, so an unknown layer value writes nothing. -/
def SetScroll (layer x y : Nat) : List Wr :=
  let x2 := x &&& 0x1FF
  let y2 := y &&& 0x1FF
  if layer = 0 then [(Target.hofs 0, x2), (Target.vofs 0, y2)]
  else if layer = 1 then [(Target.hofs 1, x2), (Target.vofs 1, y2)]
  else if layer = 2 then [(Target.hofs 2, x2), (Target.vofs 2, y2)]
  else if layer = 3 then [(Target.hofs 3, x2), (Target.vofs 3, y2)]
  else []

/-- Embedding of `RGB` (tiles.go): `uint16(r) | uint16(g)<<5 | uint16(b)<<10`
with the uint16 shifts wrapping modulo 2^16. -/
def RGB (r g b : Nat) : Nat :=
  r ||| ((g <<< 5) % 65536) ||| ((b <<< 10) % 65536)

/-- Embedding of `SetPaletteColor` (tiles.go): one 16-bit write of `color` at
`memPAL + palette*32 + index*2`. -/
def SetPaletteColor (palette index color : Nat) : List Wr :=
  [(Target.mem (memPAL + palette * 32 + index * 2), color)]

/-- Embedding of `DefineTile4bpp` (tiles.go): sixteen 16-bit writes; write `i`
stores bytes `pixels[2i]` (low) and `pixels[2i+1]` (high) at
`base + i*2` with `base = memVRAM + charBlock*16384 + tileIndex*32`. -/
def DefineTile4bpp (charBlock tileIndex : Nat) (pixels : Nat → Nat) : List Wr :=
  let base := memVRAM + charBlock * 16384 + tileIndex * 32
  (List.range 16).map fun i =>
    (Target.mem (base + i * 2), pixels (i * 2) ||| (pixels (i * 2 + 1) <<< 8))

/-- Embedding of `DefineTile8bpp` (tiles.go): thirty-two 16-bit writes into
the 64-byte slot at `memVRAM + charBlock*16384 + tileIndex*64`. -/
def DefineTile8bpp (charBlock tileIndex : Nat) (pixels : Nat → Nat) : List Wr :=
  let base := memVRAM + charBlock * 16384 + tileIndex * 64
  (List.range 32).map fun i =>
    (Target.mem (base + i * 2), pixels (i * 2) ||| (pixels (i * 2 + 1) <<< 8))

/-- Byte address of the tilemap cell `(x, y)` of a screen block, as computed
inline by `SetTile`: `memVRAM + screenBlock*2048 + (y*32 + x)*2`. -/
def cellAddr (screenBlock x y : Nat) : Nat :=
  memVRAM + screenBlock * 2048 + (y * 32 + x) * 2

/-- Tilemap entry value as computed inline by `SetTile`: the tile index,
OR-ed with bit 10 for horizontal flip, bit 11 for vertical flip, and the
palette selector shifted to bits 12-15 (uint16 arithmetic). -/
def cellEntry (tileIndex palette : Nat) (flipH flipV : Bool) : Nat :=
  let e1 := tileIndex
  let e2 := if flipH then e1 ||| (1 <<< 10) else e1
  let e3 := if flipV then e2 ||| (1 <<< 11) else e2
  e3 ||| ((palette <<< 12) % 65536)

/-- Embedding of `SetTile` (tiles.go): a single unconditional 16-bit write of
the entry at the arithmetically computed cell address. No bounds check of
any argument is performed. -/
def SetTile (screenBlock x y tileIndex palette : Nat) (flipH flipV : Bool) : List Wr :=
  [(Target.mem (cellAddr screenBlock x y), cellEntry tileIndex palette flipH flipV)]

/-- Embedding of `FillTiled` (tiles.go): for each `row < h` (outer) and
`col < w` (inner), call `SetTile` at `(x+col, y+row)` with flips clear; the
uint8 additions `x+col` and `y+row` wrap modulo 256. -/
def FillTiled (screenBlock x y w h tileIndex palette : Nat) : List Wr :=
  (List.range h).flatMap fun row =>
    (List.range w).flatMap fun col =>
      SetTile screenBlock ((x + col) % 256) ((y + row) % 256) tileIndex palette false false

/-- Applying one write to byte-addressed memory: a `mem` target stores the
low byte at `addr` and the high byte at `addr+1` (a `Register16.Set`
truncates its value to 16 bits); register targets do not touch memory. -/
def applyWrite (m : Nat → Nat) (w : Wr) : Nat → Nat :=
  match w.1 with
  | Target.mem addr =>
      fun b => if b = addr then w.2 % 256 else if b = addr + 1 then w.2 / 256 % 256 else m b
  | _ => m

/-- Applying a write list in order. -/
def applyWrites (ws : List Wr) (m : Nat → Nat) : Nat → Nat :=
  ws.foldl applyWrite m

/-- Reading back a little-endian 16-bit value at a byte address. -/
def read16 (m : Nat → Nat) (a : Nat) : Nat :=
  m a ||| (m (a + 1) <<< 8)

/-- Folding the DISPCNT bits over a layer list: a bit is set iff it is bit
`8 + l` for a requested layer `l` or was already set in the accumulator. -/
theorem configure_fold_testBit (layers : List Nat) :
    ∀ (acc : Nat), (∀ l ∈ layers, l < 4) → ∀ i,
      ((layers.foldl (fun bits l => bits ||| ((1 <<< (8 + l)) % 65536)) acc).testBit i = true ↔
        (acc.testBit i = true ∨ ∃ l ∈ layers, i = 8 + l)) := by
  induction layers with
  | nil => simp
  | cons hd tl ih =>
    intro acc hlt i
    simp only [List.foldl_cons]
    rw [ih (acc ||| ((1 <<< (8 + hd)) % 65536)) (fun l hl => hlt l (List.mem_cons_of_mem _ hl)) i]
    have hhd : hd < 4 := hlt hd (List.mem_cons_self _ _)
    have hmod : (1 <<< (8 + hd)) % 65536 = 2 ^ (8 + hd) := by
      rw [Nat.shiftLeft_eq, Nat.one_mul]
      apply Nat.mod_eq_of_lt
      have hle : 2 ^ (8 + hd) ≤ 2 ^ 11 := Nat.pow_le_pow_right (by norm_num) (by omega)
      norm_num at hle ⊢
      omega
    rw [hmod, Nat.testBit_or, Nat.testBit_two_pow]
    simp only [Bool.or_eq_true, decide_eq_true_eq, List.mem_cons]
    constructor
    · rintro ((h | h) | ⟨l, hl, rfl⟩)
      · exact Or.inl h
      · exact Or.inr ⟨hd, Or.inl rfl, h.symm⟩
      · exact Or.inr ⟨l, Or.inr hl, rfl⟩
    · rintro (h | ⟨l, (rfl | hl), rfl⟩)
      · exact Or.inl (Or.inl h)
      · exact Or.inl (Or.inr rfl)
      · exact Or.inr ⟨l, hl, rfl⟩

/-- C7: for every list of layers drawn from Layer0-Layer3, `ConfigureLayers`
performs exactly one write, to the display-control register, and the written
value has bit `8 + l` set iff layer `l` occurs in the list, all other bits
zero (in particular the mode bits 0-2 are zero, selecting Mode 0). -/
theorem configureLayers_single_write_exact_bits :
    ∀ layers : List Nat, (∀ l ∈ layers, l < 4) →
      ∃ v, ConfigureLayers layers = [(Target.dispcnt, v)] ∧
        ∀ i, (v.testBit i = true ↔ ∃ l ∈ layers, i = 8 + l) := by
  intro layers h
  refine ⟨_, rfl, fun i => ?_⟩
  have hf := configure_fold_testBit layers 0 h i
  simpa using hf

/-- Witness for C7 at the concrete layer list `[0, 2]`. -/
theorem configureLayers_single_write_exact_bits_witness :
    (∀ l ∈ [0, 2], l < 4) ∧
      ∃ v, ConfigureLayers [0, 2] = [(Target.dispcnt, v)] ∧
        ∀ i, (v.testBit i = true ↔ ∃ l ∈ [0, 2], i = 8 + l) :=
  ⟨by decide, configureLayers_single_write_exact_bits [0, 2] (by decide)⟩

/-- C8: for every layer 0-3 and 16-bit x and y, `SetScroll` writes `x % 512`
to the layer's horizontal scroll register and `y % 512` to its vertical
scroll register (the 9-bit mask coincides with reduction modulo 512). -/
theorem setScroll_writes_mod_512 :
    ∀ layer x y : Nat, layer < 4 → x < 65536 → y < 65536 →
      SetScroll layer x y = [(Target.hofs layer, x % 512), (Target.vofs layer, y % 512)] := by
  intro layer x y hl hx hy
  interval_cases layer <;> simp [SetScroll, and_511_eq_mod]

/-- Witness for C8 at layer 1, x = 513, y = 70. -/
theorem setScroll_writes_mod_512_witness :
    ((1 : Nat) < 4 ∧ (513 : Nat) < 65536 ∧ (70 : Nat) < 65536) ∧
      SetScroll 1 513 70 = [(Target.hofs 1, 513 % 512), (Target.vofs 1, 70 % 512)] :=
  ⟨by decide, setScroll_writes_mod_512 1 513 70 (by decide) (by decide) (by decide)⟩

/-- C9: for components at most 31, `RGB` packs red into bits 0-4, green into
bits 5-9, blue into bits 10-14 with bit 15 clear, and `SetPaletteColor`
stores its color word at palette-RAM halfword index `palette*16 + index`. -/
theorem rgb_layout_and_palette_addr :
    ∀ r g b palette index color : Nat, r ≤ 31 → g ≤ 31 → b ≤ 31 →
      (∀ i, i < 5 → (RGB r g b).testBit i = r.testBit i) ∧
      (∀ i, i < 5 → (RGB r g b).testBit (5 + i) = g.testBit i) ∧
      (∀ i, i < 5 → (RGB r g b).testBit (10 + i) = b.testBit i) ∧
      (RGB r g b).testBit 15 = false ∧
      SetPaletteColor palette index color =
        [(Target.mem (memPAL + (palette * 16 + index) * 2), color)] := by
  intro r g b palette index color hr hg hb
  have hgm : (g <<< 5) % 65536 = g <<< 5 := by
    apply Nat.mod_eq_of_lt
    rw [Nat.shiftLeft_eq]
    norm_num
    omega
  have hbm : (b <<< 10) % 65536 = b <<< 10 := by
    apply Nat.mod_eq_of_lt
    rw [Nat.shiftLeft_eq]
    norm_num
    omega
  have key : ∀ i, (RGB r g b).testBit i =
      (r.testBit i || (decide (i ≥ 5) && g.testBit (i - 5)) ||
        (decide (i ≥ 10) && b.testBit (i - 10))) := by
    intro i
    simp only [RGB, hgm, hbm, Nat.testBit_or, Nat.testBit_shiftLeft]
  have hrf : ∀ j, 5 ≤ j → r.testBit j = false := by
    intro j hj
    exact Nat.testBit_lt_two_pow
      (lt_of_lt_of_le (show r < 2 ^ 5 by norm_num; omega) (Nat.pow_le_pow_right (by norm_num) hj))
  have hgf : ∀ j, 5 ≤ j → g.testBit j = false := by
    intro j hj
    exact Nat.testBit_lt_two_pow
      (lt_of_lt_of_le (show g < 2 ^ 5 by norm_num; omega) (Nat.pow_le_pow_right (by norm_num) hj))
  have hbf : ∀ j, 5 ≤ j → b.testBit j = false := by
    intro j hj
    exact Nat.testBit_lt_two_pow
      (lt_of_lt_of_le (show b < 2 ^ 5 by norm_num; omega) (Nat.pow_le_pow_right (by norm_num) hj))
  refine ⟨?_, ?_, ?_, ?_, ?_⟩
  · intro i hi
    rw [key, decide_eq_false (by omega : ¬ i ≥ 5), decide_eq_false (by omega : ¬ i ≥ 10)]
    simp
  · intro i hi
    rw [key, decide_eq_true (by omega : 5 + i ≥ 5), decide_eq_false (by omega : ¬ 5 + i ≥ 10),
      hrf (5 + i) (by omega)]
    simp [Nat.add_sub_cancel_left]
  · intro i hi
    rw [key, decide_eq_true (by omega : 10 + i ≥ 5), decide_eq_true (by omega : 10 + i ≥ 10),
      hrf (10 + i) (by omega)]
    have h1 : 10 + i - 5 = 5 + i := by omega
    have h2 : 10 + i - 10 = i := by omega
    rw [h1, h2, hgf (5 + i) (by omega)]
    simp
  · rw [key, decide_eq_true (by omega : 15 ≥ 5), decide_eq_true (by omega : 15 ≥ 10),
      hrf 15 (by omega)]
    have h1 : (15 : Nat) - 5 = 10 := by norm_num
    have h2 : (15 : Nat) - 10 = 5 := by norm_num
    rw [h1, h2, hgf 10 (by omega), hbf 5 (by omega)]
    simp
  · simp only [SetPaletteColor]
    have haddr : memPAL + palette * 32 + index * 2 = memPAL + (palette * 16 + index) * 2 := by
      ring
    rw [haddr]

/-- Witness for C9 at r = 31, g = 0, b = 17, palette 2, index 5, color 99. -/
theorem rgb_layout_and_palette_addr_witness :
    ((31 : Nat) ≤ 31 ∧ (0 : Nat) ≤ 31 ∧ (17 : Nat) ≤ 31) ∧
      ((∀ i, i < 5 → (RGB 31 0 17).testBit i = Nat.testBit 31 i) ∧
       (∀ i, i < 5 → (RGB 31 0 17).testBit (5 + i) = Nat.testBit 0 i) ∧
       (∀ i, i < 5 → (RGB 31 0 17).testBit (10 + i) = Nat.testBit 17 i) ∧
       (RGB 31 0 17).testBit 15 = false ∧
       SetPaletteColor 2 5 99 = [(Target.mem (memPAL + (2 * 16 + 5) * 2), 99)]) :=
  ⟨by decide, rgb_layout_and_palette_addr 31 0 17 2 5 99 (by decide) (by decide) (by decide)⟩

/-- C6: for in-range arguments, `SetTile` performs exactly one 16-bit write,
at VRAM halfword index `screenBlock*1024 + y*32 + x`, of an entry whose
bits 0-9 are the tile index, bit 10 the horizontal flip, bit 11 the vertical
flip, and bits 12-15 the palette selector (bits 16 and up are zero). -/
theorem setTile_single_write_layout :
    ∀ (screenBlock x y tileIndex palette : Nat) (flipH flipV : Bool),
      screenBlock < 32 → x < 32 → y < 32 → tileIndex < 1024 → palette < 16 →
      SetTile screenBlock x y tileIndex palette flipH flipV =
        [(Target.mem (memVRAM + (screenBlock * 1024 + y * 32 + x) * 2),
          cellEntry tileIndex palette flipH flipV)] ∧
      (∀ i, i < 10 →
        (cellEntry tileIndex palette flipH flipV).testBit i = tileIndex.testBit i) ∧
      (cellEntry tileIndex palette flipH flipV).testBit 10 = flipH ∧
      (cellEntry tileIndex palette flipH flipV).testBit 11 = flipV ∧
      (∀ i, i < 4 →
        (cellEntry tileIndex palette flipH flipV).testBit (12 + i) = palette.testBit i) ∧
      (∀ i, 16 ≤ i → (cellEntry tileIndex palette flipH flipV).testBit i = false) := by
  intro sb x y ti pal fH fV hsb hx hy hti hpal
  have hpm : (pal <<< 12) % 65536 = pal <<< 12 := by
    apply Nat.mod_eq_of_lt
    rw [Nat.shiftLeft_eq]
    norm_num
    omega
  have htif : ∀ j, 10 ≤ j → ti.testBit j = false := by
    intro j hj
    exact Nat.testBit_lt_two_pow
      (lt_of_lt_of_le (show ti < 2 ^ 10 by norm_num; omega) (Nat.pow_le_pow_right (by norm_num) hj))
  have hpalf : ∀ j, 4 ≤ j → pal.testBit j = false := by
    intro j hj
    exact Nat.testBit_lt_two_pow
      (lt_of_lt_of_le (show pal < 2 ^ 4 by norm_num; omega) (Nat.pow_le_pow_right (by norm_num) hj))
  have h10 : (1 : Nat) <<< 10 = 2 ^ 10 := by rw [Nat.shiftLeft_eq, Nat.one_mul]
  have h11 : (1 : Nat) <<< 11 = 2 ^ 11 := by rw [Nat.shiftLeft_eq, Nat.one_mul]
  have key : ∀ i, (cellEntry ti pal fH fV).testBit i =
      (ti.testBit i || ((fH && decide (10 = i)) || (fV && decide (11 = i))) ||
        (decide (i ≥ 12) && pal.testBit (i - 12))) := by
    intro i
    have h1024 : ∀ j, Nat.testBit 1024 j = decide (10 = j) := by
      intro j
      rw [show (1024 : Nat) = 2 ^ 10 by norm_num, Nat.testBit_two_pow]
    have h2048 : ∀ j, Nat.testBit 2048 j = decide (11 = j) := by
      intro j
      rw [show (2048 : Nat) = 2 ^ 11 by norm_num, Nat.testBit_two_pow]
    cases fH <;> cases fV <;>
      simp [cellEntry, hpm, h1024, h2048, Nat.testBit_or, Nat.testBit_shiftLeft,
        Bool.or_assoc]
  refine ⟨?_, ?_, ?_, ?_, ?_, ?_⟩
  · simp only [SetTile, cellAddr]
    have haddr : memVRAM + sb * 2048 + (y * 32 + x) * 2 =
        memVRAM + (sb * 1024 + y * 32 + x) * 2 := by ring
    rw [haddr]
  · intro i hi
    rw [key, decide_eq_false (by omega : ¬ 10 = i), decide_eq_false (by omega : ¬ 11 = i),
      decide_eq_false (by omega : ¬ i ≥ 12)]
    simp
  · rw [key, decide_eq_true (rfl : (10 : Nat) = 10), decide_eq_false (by omega : ¬ 11 = 10),
      decide_eq_false (by omega : ¬ 10 ≥ 12), htif 10 (by omega)]
    simp
  · rw [key, decide_eq_false (by omega : ¬ 10 = 11), decide_eq_true (rfl : (11 : Nat) = 11),
      decide_eq_false (by omega : ¬ 11 ≥ 12), htif 11 (by omega)]
    simp
  · intro i hi
    rw [key, decide_eq_false (by omega : ¬ 10 = 12 + i), decide_eq_false (by omega : ¬ 11 = 12 + i),
      decide_eq_true (by omega : 12 + i ≥ 12), htif (12 + i) (by omega)]
    have h12 : 12 + i - 12 = i := by omega
    rw [h12]
    simp
  · intro i hi
    rw [key, decide_eq_false (by omega : ¬ 10 = i), decide_eq_false (by omega : ¬ 11 = i),
      decide_eq_true (by omega : i ≥ 12), htif i (by omega), hpalf (i - 12) (by omega)]
    simp

/-- Witness for C6 at screen block 8, x = 1, y = 2, tile 5, palette 3,
horizontal flip set, vertical flip clear. -/
theorem setTile_single_write_layout_witness :
    ((8 : Nat) < 32 ∧ (1 : Nat) < 32 ∧ (2 : Nat) < 32 ∧ (5 : Nat) < 1024 ∧ (3 : Nat) < 16) ∧
      (SetTile 8 1 2 5 3 true false =
        [(Target.mem (memVRAM + (8 * 1024 + 2 * 32 + 1) * 2), cellEntry 5 3 true false)] ∧
      (∀ i, i < 10 → (cellEntry 5 3 true false).testBit i = Nat.testBit 5 i) ∧
      (cellEntry 5 3 true false).testBit 10 = true ∧
      (cellEntry 5 3 true false).testBit 11 = false ∧
      (∀ i, i < 4 → (cellEntry 5 3 true false).testBit (12 + i) = Nat.testBit 3 i) ∧
      (∀ i, 16 ≤ i → (cellEntry 5 3 true false).testBit i = false)) :=
  ⟨by decide, setTile_single_write_layout 8 1 2 5 3 true false
    (by decide) (by decide) (by decide) (by decide) (by decide)⟩

/-- C3 counterexample: `SetTile` at x = 32 on a 32-wide screen block is not
rejected; it performs one memory write (to the address arithmetically
computed from x = 32), so the claimed OutOfRange failure with zero writes is
false on the code. -/
theorem setTile_out_of_range_writes_anyway :
    SetTile 0 32 0 0 0 false false = [(Target.mem (memVRAM + 64), 0)] ∧
      (SetTile 0 32 0 0 0 false false).length = 1 := by
  constructor
  · rfl
  · rfl

/-- C3 amended: `SetTile` performs no range check; a call with x = 32 on a
32-wide block performs exactly one 16-bit write, at the unchecked address
`memVRAM + screenBlock*2048 + (y*32 + 32)*2` (the cell after the addressed
row), never failing and never skipping the write. -/
theorem setTile_unchecked_write :
    ∀ (screenBlock y tileIndex palette : Nat) (flipH flipV : Bool),
      SetTile screenBlock 32 y tileIndex palette flipH flipV =
        [(Target.mem (memVRAM + screenBlock * 2048 + (y * 32 + 32) * 2),
          cellEntry tileIndex palette flipH flipV)] := by
  intro sb y ti pal fH fV
  rfl

/-- C10: writing at x = 32 targets exactly the same address with the same
value as writing at x = 0 of the next tile row: the out-of-range coordinate
silently carries into the first cell of the following row. -/
theorem setTile_x32_equals_next_row :
    ∀ (screenBlock y tileIndex palette : Nat) (flipH flipV : Bool), y ≤ 30 →
      SetTile screenBlock 32 y tileIndex palette flipH flipV =
        SetTile screenBlock 0 (y + 1) tileIndex palette flipH flipV := by
  intro sb y ti pal fH fV hy
  simp only [SetTile, cellAddr]
  have haddr : (y * 32 + 32) * 2 = ((y + 1) * 32 + 0) * 2 := by ring
  rw [haddr]

/-- Witness for C10 at screen block 8, y = 7, tile 5, palette 3. -/
theorem setTile_x32_equals_next_row_witness :
    (7 : Nat) ≤ 30 ∧
      SetTile 8 32 7 5 3 false true = SetTile 8 0 (7 + 1) 5 3 false true :=
  ⟨by decide, setTile_x32_equals_next_row 8 7 5 3 false true (by decide)⟩

/-- Foreground palette index for letter glyph pixels (`palLetter` in the
keyboard example). -/
def palLetter : Nat := 3

/-- The four 32-byte quarter-tile buffers returned by `glyphQuarterTiles`
(top-left, top-right, bottom-left, bottom-right), each modelled as a byte
index to byte value map (indices 0-31 are meaningful). -/
structure Quarters where
  tl : Nat → Nat
  tr : Nat → Nat
  bl : Nat → Nat
  br : Nat → Nat

/-- Functional update of one byte of a buffer (a Go array store). -/
def updByte (f : Nat → Nat) (i v : Nat) : Nat → Nat :=
  fun j => if j = i then v else f j

/-- The per-column pixel value array `g` of `glyphQuarterTiles`: entry `i` is
`palLetter` when bit `4 - i` of the row byte is set, else 0. -/
def glyphG (bits i : Nat) : Nat :=
  if (bits >>> (4 - i)) &&& 1 ≠ 0 then palLetter else 0

/-- One iteration of the `glyphQuarterTiles` loop at glyph row `gr`: rows
0-3 write tile rows 4-7 of the top buffers, rows 4-6 write tile rows 0-2 of
the bottom buffers; columns 0-2 go to bytes `base+2` and `base+3` of the
left buffer, columns 3-4 to byte `base+0` of the right buffer. -/
def glyphStep (rows : Nat → Nat) (q : Quarters) (gr : Nat) : Quarters :=
  let bits := rows gr
  let g := glyphG bits
  let tileRow := if gr < 4 then 4 + gr else gr - 4
  let base := tileRow * 4
  if gr < 4 then
    { q with
      tl := updByte (updByte q.tl (base + 2) (0 ||| (g 0 <<< 4))) (base + 3) (g 1 ||| (g 2 <<< 4)),
      tr := updByte q.tr (base + 0) (g 3 ||| (g 4 <<< 4)) }
  else
    { q with
      bl := updByte (updByte q.bl (base + 2) (0 ||| (g 0 <<< 4))) (base + 3) (g 1 ||| (g 2 <<< 4)),
      br := updByte q.br (base + 0) (g 3 ||| (g 4 <<< 4)) }

/-- Embedding of `glyphQuarterTiles` (keyboard example): splits a centered
5x7 glyph across the four 8x8 tiles of a 2x2 key block, looping over the
seven glyph rows with all buffers initially zero. -/
def glyphQuarterTiles (rows : Nat → Nat) : Quarters :=
  (List.range 7).foldl (glyphStep rows) ⟨fun _ => 0, fun _ => 0, fun _ => 0, fun _ => 0⟩

/-- Closed form of every byte of the four quarter buffers: glyph row `gr`
(recovered from the byte index) contributes column 0 as the high nibble of
byte `tileRow*4+2`, columns 1 and 2 as low/high nibbles of `tileRow*4+3` in
the left buffers, and columns 3 and 4 as low/high nibbles of `tileRow*4+0`
in the right buffers; every other byte is zero. -/
theorem glyphQuarterTiles_bytes (rows : Nat → Nat) (j : Nat) (hj : j < 32) :
    ((glyphQuarterTiles rows).tl j =
      (if 16 ≤ j ∧ j % 4 = 2 then glyphG (rows (j / 4 - 4)) 0 <<< 4
       else if 16 ≤ j ∧ j % 4 = 3 then
         glyphG (rows (j / 4 - 4)) 1 ||| (glyphG (rows (j / 4 - 4)) 2 <<< 4)
       else 0)) ∧
    ((glyphQuarterTiles rows).tr j =
      (if 16 ≤ j ∧ j % 4 = 0 then
         glyphG (rows (j / 4 - 4)) 3 ||| (glyphG (rows (j / 4 - 4)) 4 <<< 4)
       else 0)) ∧
    ((glyphQuarterTiles rows).bl j =
      (if j < 12 ∧ j % 4 = 2 then glyphG (rows (j / 4 + 4)) 0 <<< 4
       else if j < 12 ∧ j % 4 = 3 then
         glyphG (rows (j / 4 + 4)) 1 ||| (glyphG (rows (j / 4 + 4)) 2 <<< 4)
       else 0)) ∧
    ((glyphQuarterTiles rows).br j =
      (if j < 12 ∧ j % 4 = 0 then
         glyphG (rows (j / 4 + 4)) 3 ||| (glyphG (rows (j / 4 + 4)) 4 <<< 4)
       else 0)) := by
  interval_cases j <;>
    simp [glyphQuarterTiles, glyphStep, updByte, List.range_succ]

/-- C2: at the reference offset (5,4), every byte of the four quarter
buffers produced by `glyphQuarterTiles` is as the spec lays out: glyph rows
0-3 only populate the top buffers at intra-tile rows 4-7, rows 4-6 only the
bottom buffers at intra-tile rows 0-2; columns 0-2 land in the left buffers
(column 0 in the high nibble of byte `tileRow*4+2`, columns 1 and 2 in the
low/high nibbles of byte `tileRow*4+3`), columns 3-4 in the right buffers
(low/high nibbles of byte `tileRow*4`); a set bit yields `palLetter`, an
unset bit leaves the nibble 0, and every other byte is 0. -/
theorem glyph_reference_offset_layout :
    ∀ (rows : Nat → Nat) (j : Nat), j < 32 →
    ((glyphQuarterTiles rows).tl j =
      (if 16 ≤ j ∧ j % 4 = 2 then glyphG (rows (j / 4 - 4)) 0 <<< 4
       else if 16 ≤ j ∧ j % 4 = 3 then
         glyphG (rows (j / 4 - 4)) 1 ||| (glyphG (rows (j / 4 - 4)) 2 <<< 4)
       else 0)) ∧
    ((glyphQuarterTiles rows).tr j =
      (if 16 ≤ j ∧ j % 4 = 0 then
         glyphG (rows (j / 4 - 4)) 3 ||| (glyphG (rows (j / 4 - 4)) 4 <<< 4)
       else 0)) ∧
    ((glyphQuarterTiles rows).bl j =
      (if j < 12 ∧ j % 4 = 2 then glyphG (rows (j / 4 + 4)) 0 <<< 4
       else if j < 12 ∧ j % 4 = 3 then
         glyphG (rows (j / 4 + 4)) 1 ||| (glyphG (rows (j / 4 + 4)) 2 <<< 4)
       else 0)) ∧
    ((glyphQuarterTiles rows).br j =
      (if j < 12 ∧ j % 4 = 0 then
         glyphG (rows (j / 4 + 4)) 3 ||| (glyphG (rows (j / 4 + 4)) 4 <<< 4)
       else 0)) :=
  fun rows j hj => glyphQuarterTiles_bytes rows j hj

/-- Witness for C2 at the letter-a glyph rows (all rows 14 here) and byte
index 18 (tile row 4, the byte holding pixel columns 4 and 5). -/
theorem glyph_reference_offset_layout_witness :
    (18 : Nat) < 32 ∧
    (((glyphQuarterTiles fun _ => 14).tl 18 =
      (if 16 ≤ 18 ∧ 18 % 4 = 2 then glyphG 14 0 <<< 4
       else if 16 ≤ 18 ∧ 18 % 4 = 3 then glyphG 14 1 ||| (glyphG 14 2 <<< 4)
       else 0)) ∧
    ((glyphQuarterTiles fun _ => 14).tr 18 =
      (if 16 ≤ 18 ∧ 18 % 4 = 0 then glyphG 14 3 ||| (glyphG 14 4 <<< 4)
       else 0)) ∧
    ((glyphQuarterTiles fun _ => 14).bl 18 =
      (if 18 < 12 ∧ 18 % 4 = 2 then glyphG 14 0 <<< 4
       else if 18 < 12 ∧ 18 % 4 = 3 then glyphG 14 1 ||| (glyphG 14 2 <<< 4)
       else 0)) ∧
    ((glyphQuarterTiles fun _ => 14).br 18 =
      (if 18 < 12 ∧ 18 % 4 = 0 then glyphG 14 3 ||| (glyphG 14 4 <<< 4)
       else 0))) :=
  ⟨by decide, glyph_reference_offset_layout (fun _ => 14) 18 (by decide)⟩

/-- Modelled from the spec: the general glyph compositor of section 4.5.
The source function `glyphQuarterTiles` hard-codes the reference offset
(5,4); only the spec describes the compositor for an arbitrary intra-cell
offset `(ox, oy)`. Pixel buffers of the four quadrant tiles are modelled as
one function from quadrant coordinates `(tc, tr)` and intra-tile pixel
coordinates `(px, py)` to the pixel's palette index. This is one loop step:
for glyph cell `k` (row `k/5`, column `k%5`), if the glyph bit is set, write
the foreground index into the owning quadrant `((ox+c)/8, (oy+r)/8)` at
intra-tile position `((ox+c)%8, (oy+r)%8)`. -/
def compStep (ox oy : Nat) (glyph : Nat → Nat → Bool)
    (B : Nat → Nat → Nat → Nat → Nat) (k : Nat) : Nat → Nat → Nat → Nat → Nat :=
  let r := k / 5
  let c := k % 5
  if glyph r c then
    fun tc tr px py =>
      if tc = (ox + c) / 8 ∧ tr = (oy + r) / 8 ∧ px = (ox + c) % 8 ∧ py = (oy + r) % 8 then
        palLetter
      else B tc tr px py
  else B

/-- Modelled from the spec: the quadrant pixel buffers after processing all
35 glyph cells (7 rows by 5 columns), starting from all-transparent. -/
def compPixels (ox oy : Nat) (glyph : Nat → Nat → Bool) : Nat → Nat → Nat → Nat → Nat :=
  (List.range 35).foldl (compStep ox oy glyph) fun _ _ _ _ => 0

/-- The 4bpp packing rule of section 3: byte `i` of a tile holds pixel
`(2*(i%4), i/4)` in its low nibble and pixel `(2*(i%4)+1, i/4)` in its high
nibble. -/
def pack4bpp (buf : Nat → Nat → Nat) : Nat → Nat :=
  fun i => buf (2 * (i % 4)) (i / 4) ||| (buf (2 * (i % 4) + 1) (i / 4) <<< 4)

/-- Decides whether some set glyph pixel among the first `n` glyph cells
maps to quadrant `(tc, tr)` intra-tile position `(px, py)` exactly as the
compositor's update condition states it. -/
def hitB (ox oy : Nat) (glyph : Nat → Nat → Bool) (tc tr px py n : Nat) : Bool :=
  (List.range n).any fun k =>
    glyph (k / 5) (k % 5) && (tc == (ox + k % 5) / 8) && (tr == (oy + k / 5) / 8) &&
      (px == (ox + k % 5) % 8) && (py == (oy + k / 5) % 8)

/-- Decides whether some set glyph pixel `(r, c)` maps through the offset to
quadrant `(tc, tr)` at intra-tile position `(px, py)`, phrased as the claim
phrases it: `ox + c = 8*tc + px` and `oy + r = 8*tr + py`. -/
def mapsToB (glyph : Nat → Nat → Bool) (ox oy tc tr px py : Nat) : Bool :=
  (List.range 7).any fun r =>
    (List.range 5).any fun c =>
      glyph r c && (ox + c == 8 * tc + px) && (oy + r == 8 * tr + py)

/-- Unfolding `hitB` by one glyph cell. -/
theorem hitB_succ (ox oy : Nat) (glyph : Nat → Nat → Bool) (tc tr px py n : Nat) :
    hitB ox oy glyph tc tr px py (n + 1) =
      (hitB ox oy glyph tc tr px py n ||
        (glyph (n / 5) (n % 5) && (tc == (ox + n % 5) / 8) && (tr == (oy + n / 5) / 8) &&
          (px == (ox + n % 5) % 8) && (py == (oy + n / 5) % 8))) := by
  simp [hitB, List.range_succ]

/-- Invariant of the compositing fold: after the first `n` glyph cells, a
quadrant pixel is the foreground index iff one of those cells is set and
maps there, and is 0 otherwise. -/
theorem compFold (ox oy : Nat) (glyph : Nat → Nat → Bool) :
    ∀ n tc tr px py,
      ((List.range n).foldl (compStep ox oy glyph) fun _ _ _ _ => 0) tc tr px py =
        if hitB ox oy glyph tc tr px py n = true then palLetter else 0 := by
  intro n
  induction n with
  | zero =>
    intro tc tr px py
    simp [hitB]
  | succ n ih =>
    intro tc tr px py
    rw [List.range_succ, List.foldl_append, List.foldl_cons, List.foldl_nil, hitB_succ]
    by_cases hg : glyph (n / 5) (n % 5) = true
    · simp only [compStep, hg, if_true]
      by_cases hs : tc = (ox + n % 5) / 8 ∧ tr = (oy + n / 5) / 8 ∧
          px = (ox + n % 5) % 8 ∧ py = (oy + n / 5) % 8
      · rw [if_pos hs]
        obtain ⟨h1, h2, h3, h4⟩ := hs
        simp [h1, h2, h3, h4]
      · rw [if_neg hs, ih tc tr px py]
        have hterm : ((tc == (ox + n % 5) / 8) && (tr == (oy + n / 5) / 8) &&
            (px == (ox + n % 5) % 8) && (py == (oy + n / 5) % 8)) = false := by
          by_cases e1 : tc = (ox + n % 5) / 8
          · by_cases e2 : tr = (oy + n / 5) / 8
            · by_cases e3 : px = (ox + n % 5) % 8
              · by_cases e4 : py = (oy + n / 5) % 8
                · exact absurd ⟨e1, e2, e3, e4⟩ hs
                · simp [e4]
              · simp [e3]
            · simp [e2]
          · simp [e1]
        simp only [Bool.true_and]
        rw [hterm, Bool.or_false]
    · have hgf : glyph (n / 5) (n % 5) = false := Bool.eq_false_iff.mpr hg
      simp only [compStep, hgf, Bool.false_eq_true, if_false]
      rw [ih tc tr px py]
      simp

/-- Every quadrant pixel of the spec compositor equals the foreground index
exactly when some set glyph pixel maps there. -/
theorem compPixels_eq (ox oy : Nat) (glyph : Nat → Nat → Bool) (tc tr px py : Nat) :
    compPixels ox oy glyph tc tr px py =
      if hitB ox oy glyph tc tr px py 35 = true then palLetter else 0 :=
  compFold ox oy glyph 35 tc tr px py

/-- Propositional reading of `hitB`. -/
theorem hitB_true_iff (ox oy : Nat) (glyph : Nat → Nat → Bool) (tc tr px py n : Nat) :
    hitB ox oy glyph tc tr px py n = true ↔
      ∃ k, k < n ∧ glyph (k / 5) (k % 5) = true ∧ tc = (ox + k % 5) / 8 ∧
        tr = (oy + k / 5) / 8 ∧ px = (ox + k % 5) % 8 ∧ py = (oy + k / 5) % 8 := by
  simp only [hitB, List.any_eq_true, List.mem_range, Bool.and_eq_true, beq_iff_eq]
  constructor
  · rintro ⟨k, hk, ⟨⟨⟨hg, h1⟩, h2⟩, h3⟩, h4⟩
    exact ⟨k, hk, hg, h1, h2, h3, h4⟩
  · rintro ⟨k, hk, hg, h1, h2, h3, h4⟩
    exact ⟨k, hk, ⟨⟨⟨hg, h1⟩, h2⟩, h3⟩, h4⟩

/-- Propositional reading of `mapsToB`. -/
theorem mapsToB_true_iff (glyph : Nat → Nat → Bool) (ox oy tc tr px py : Nat) :
    mapsToB glyph ox oy tc tr px py = true ↔
      ∃ r, r < 7 ∧ ∃ c, c < 5 ∧ glyph r c = true ∧
        ox + c = 8 * tc + px ∧ oy + r = 8 * tr + py := by
  simp only [mapsToB, List.any_eq_true, List.mem_range, Bool.and_eq_true, beq_iff_eq]
  constructor
  · rintro ⟨r, hr, c, hc, ⟨hg, h1⟩, h2⟩
    exact ⟨r, hr, c, hc, hg, h1, h2⟩
  · rintro ⟨r, hr, c, hc, hg, h1, h2⟩
    exact ⟨r, hr, c, hc, ⟨hg, h1⟩, h2⟩

/-- For intra-tile positions the compositor's division-based owning-quadrant
condition agrees with the claim's linear-equation form. -/
theorem hitB_eq_mapsToB (ox oy : Nat) (glyph : Nat → Nat → Bool) (tc tr px py : Nat)
    (hpx : px < 8) (hpy : py < 8) :
    hitB ox oy glyph tc tr px py 35 = mapsToB glyph ox oy tc tr px py := by
  have hiff : (hitB ox oy glyph tc tr px py 35 = true) ↔
      (mapsToB glyph ox oy tc tr px py = true) := by
    rw [hitB_true_iff, mapsToB_true_iff]
    constructor
    · rintro ⟨k, hk, hg, h1, h2, h3, h4⟩
      exact ⟨k / 5, by omega, k % 5, by omega, hg, by omega, by omega⟩
    · rintro ⟨r, hr, c, hc, hg, h1, h2⟩
      refine ⟨r * 5 + c, by omega, ?_, by omega, by omega, by omega, by omega⟩
      have hq : (r * 5 + c) / 5 = r := by omega
      have hm : (r * 5 + c) % 5 = c := by omega
      rw [hq, hm]
      exact hg
  cases hb : hitB ox oy glyph tc tr px py 35
  · cases hm : mapsToB glyph ox oy tc tr px py
    · rfl
    · have hcontra := hiff.mpr hm
      rw [hb] at hcontra
      exact absurd hcontra (by simp)
  · exact (hiff.mp hb).symm

/-- Masking with `15 = 2 ^ 4 - 1` is reduction modulo 16. -/
theorem and_15_eq_mod (x : Nat) : x &&& 15 = x % 16 := by
  apply Nat.eq_of_testBit_eq
  intro i
  have h15 : (15 : Nat) = 2 ^ 4 - 1 := by norm_num
  have h16 : (16 : Nat) = 2 ^ 4 := by norm_num
  rw [Nat.testBit_and, h15, h16, Nat.testBit_two_pow_sub_one, Nat.testBit_mod_two_pow]
  rw [Bool.and_comm]

/-- Nibble extraction from a 4bpp-packed byte: the low nibble is the even
pixel and the high nibble the odd pixel. -/
theorem pack_lo_hi (a b : Nat) (ha : a < 16) (hb : b < 16) :
    (a ||| (b <<< 4)) &&& 15 = a ∧ (a ||| (b <<< 4)) >>> 4 = b := by
  have h := lor_shiftLeft_eq_add a b 4 (by norm_num; omega)
  constructor
  · rw [h, and_15_eq_mod]
    norm_num
    omega
  · rw [h, Nat.shiftRight_eq_div_pow]
    norm_num
    omega

/-- Top-left quadrant pixels of the spec compositor at the reference offset
(5,4): exactly glyph columns 0-2 and rows 0-3, at pixel x 5-7 and y 4-7. -/
theorem compPixels_ref_tl (g : Nat → Nat → Bool) (px py : Nat) (hpx : px < 8) (hpy : py < 8) :
    compPixels 5 4 g 0 0 px py =
      if 5 ≤ px ∧ 4 ≤ py ∧ g (py - 4) (px - 5) = true then palLetter else 0 := by
  rw [compPixels_eq]
  have hiff : (hitB 5 4 g 0 0 px py 35 = true) ↔
      (5 ≤ px ∧ 4 ≤ py ∧ g (py - 4) (px - 5) = true) := by
    rw [hitB_true_iff]
    constructor
    · rintro ⟨k, hk, hg, h1, h2, h3, h4⟩
      refine ⟨by omega, by omega, ?_⟩
      have hr : py - 4 = k / 5 := by omega
      have hc : px - 5 = k % 5 := by omega
      rw [hr, hc]
      exact hg
    · rintro ⟨h5, h4', hg⟩
      refine ⟨(py - 4) * 5 + (px - 5), by omega, ?_, by omega, by omega, by omega, by omega⟩
      have hq : ((py - 4) * 5 + (px - 5)) / 5 = py - 4 := by omega
      have hm : ((py - 4) * 5 + (px - 5)) % 5 = px - 5 := by omega
      rw [hq, hm]
      exact hg
  by_cases hcond : 5 ≤ px ∧ 4 ≤ py ∧ g (py - 4) (px - 5) = true
  · rw [if_pos (hiff.mpr hcond), if_pos hcond]
  · rw [if_neg (fun h => hcond (hiff.mp h)), if_neg hcond]

/-- Top-right quadrant pixels of the spec compositor at the reference offset
(5,4): exactly glyph columns 3-4 and rows 0-3, at pixel x 0-1 and y 4-7. -/
theorem compPixels_ref_tr (g : Nat → Nat → Bool) (px py : Nat) (hpx : px < 8) (hpy : py < 8) :
    compPixels 5 4 g 1 0 px py =
      if px ≤ 1 ∧ 4 ≤ py ∧ g (py - 4) (px + 3) = true then palLetter else 0 := by
  rw [compPixels_eq]
  have hiff : (hitB 5 4 g 1 0 px py 35 = true) ↔
      (px ≤ 1 ∧ 4 ≤ py ∧ g (py - 4) (px + 3) = true) := by
    rw [hitB_true_iff]
    constructor
    · rintro ⟨k, hk, hg, h1, h2, h3, h4⟩
      refine ⟨by omega, by omega, ?_⟩
      have hr : py - 4 = k / 5 := by omega
      have hc : px + 3 = k % 5 := by omega
      rw [hr, hc]
      exact hg
    · rintro ⟨h1', h4', hg⟩
      refine ⟨(py - 4) * 5 + (px + 3), by omega, ?_, by omega, by omega, by omega, by omega⟩
      have hq : ((py - 4) * 5 + (px + 3)) / 5 = py - 4 := by omega
      have hm : ((py - 4) * 5 + (px + 3)) % 5 = px + 3 := by omega
      rw [hq, hm]
      exact hg
  by_cases hcond : px ≤ 1 ∧ 4 ≤ py ∧ g (py - 4) (px + 3) = true
  · rw [if_pos (hiff.mpr hcond), if_pos hcond]
  · rw [if_neg (fun h => hcond (hiff.mp h)), if_neg hcond]

/-- Bottom-left quadrant pixels of the spec compositor at the reference
offset (5,4): exactly glyph columns 0-2 and rows 4-6, at pixel x 5-7 and
y 0-2. -/
theorem compPixels_ref_bl (g : Nat → Nat → Bool) (px py : Nat) (hpx : px < 8) (hpy : py < 8) :
    compPixels 5 4 g 0 1 px py =
      if 5 ≤ px ∧ py ≤ 2 ∧ g (py + 4) (px - 5) = true then palLetter else 0 := by
  rw [compPixels_eq]
  have hiff : (hitB 5 4 g 0 1 px py 35 = true) ↔
      (5 ≤ px ∧ py ≤ 2 ∧ g (py + 4) (px - 5) = true) := by
    rw [hitB_true_iff]
    constructor
    · rintro ⟨k, hk, hg, h1, h2, h3, h4⟩
      refine ⟨by omega, by omega, ?_⟩
      have hr : py + 4 = k / 5 := by omega
      have hc : px - 5 = k % 5 := by omega
      rw [hr, hc]
      exact hg
    · rintro ⟨h5, h2', hg⟩
      refine ⟨(py + 4) * 5 + (px - 5), by omega, ?_, by omega, by omega, by omega, by omega⟩
      have hq : ((py + 4) * 5 + (px - 5)) / 5 = py + 4 := by omega
      have hm : ((py + 4) * 5 + (px - 5)) % 5 = px - 5 := by omega
      rw [hq, hm]
      exact hg
  by_cases hcond : 5 ≤ px ∧ py ≤ 2 ∧ g (py + 4) (px - 5) = true
  · rw [if_pos (hiff.mpr hcond), if_pos hcond]
  · rw [if_neg (fun h => hcond (hiff.mp h)), if_neg hcond]

/-- Bottom-right quadrant pixels of the spec compositor at the reference
offset (5,4): exactly glyph columns 3-4 and rows 4-6, at pixel x 0-1 and
y 0-2. -/
theorem compPixels_ref_br (g : Nat → Nat → Bool) (px py : Nat) (hpx : px < 8) (hpy : py < 8) :
    compPixels 5 4 g 1 1 px py =
      if px ≤ 1 ∧ py ≤ 2 ∧ g (py + 4) (px + 3) = true then palLetter else 0 := by
  rw [compPixels_eq]
  have hiff : (hitB 5 4 g 1 1 px py 35 = true) ↔
      (px ≤ 1 ∧ py ≤ 2 ∧ g (py + 4) (px + 3) = true) := by
    rw [hitB_true_iff]
    constructor
    · rintro ⟨k, hk, hg, h1, h2, h3, h4⟩
      refine ⟨by omega, by omega, ?_⟩
      have hr : py + 4 = k / 5 := by omega
      have hc : px + 3 = k % 5 := by omega
      rw [hr, hc]
      exact hg
    · rintro ⟨h1', h2', hg⟩
      refine ⟨(py + 4) * 5 + (px + 3), by omega, ?_, by omega, by omega, by omega, by omega⟩
      have hq : ((py + 4) * 5 + (px + 3)) / 5 = py + 4 := by omega
      have hm : ((py + 4) * 5 + (px + 3)) % 5 = px + 3 := by omega
      rw [hq, hm]
      exact hg
  by_cases hcond : px ≤ 1 ∧ py ≤ 2 ∧ g (py + 4) (px + 3) = true
  · rw [if_pos (hiff.mpr hcond), if_pos hcond]
  · rw [if_neg (fun h => hcond (hiff.mp h)), if_neg hcond]

/-- The glyph bit predicate of the source data format: bit `4 - c` of the
row byte (bit 4 is the leftmost column). -/
def glyphBits (rows : Nat → Nat) (r c : Nat) : Bool :=
  ((rows r >>> (4 - c)) &&& 1) != 0

/-- At the reference offset the source `glyphQuarterTiles` byte buffers
coincide with the spec compositor's packed quadrant buffers. -/
theorem glyph_ref_agree (rows : Nat → Nat) (j : Nat) (hj : j < 32) :
    (glyphQuarterTiles rows).tl j = pack4bpp (compPixels 5 4 (glyphBits rows) 0 0) j ∧
    (glyphQuarterTiles rows).tr j = pack4bpp (compPixels 5 4 (glyphBits rows) 1 0) j ∧
    (glyphQuarterTiles rows).bl j = pack4bpp (compPixels 5 4 (glyphBits rows) 0 1) j ∧
    (glyphQuarterTiles rows).br j = pack4bpp (compPixels 5 4 (glyphBits rows) 1 1) j := by
  obtain ⟨htl, htr, hbl, hbr⟩ := glyphQuarterTiles_bytes rows j hj
  refine ⟨?_, ?_, ?_, ?_⟩
  · rw [htl]
    simp only [pack4bpp]
    rw [compPixels_ref_tl _ _ _ (by omega) (by omega),
      compPixels_ref_tl _ _ _ (by omega) (by omega)]
    interval_cases j <;> simp [glyphG, glyphBits, palLetter, bne_iff_ne]
  · rw [htr]
    simp only [pack4bpp]
    rw [compPixels_ref_tr _ _ _ (by omega) (by omega),
      compPixels_ref_tr _ _ _ (by omega) (by omega)]
    interval_cases j <;> simp [glyphG, glyphBits, palLetter, bne_iff_ne]
  · rw [hbl]
    simp only [pack4bpp]
    rw [compPixels_ref_bl _ _ _ (by omega) (by omega),
      compPixels_ref_bl _ _ _ (by omega) (by omega)]
    interval_cases j <;> simp [glyphG, glyphBits, palLetter, bne_iff_ne]
  · rw [hbr]
    simp only [pack4bpp]
    rw [compPixels_ref_br _ _ _ (by omega) (by omega),
      compPixels_ref_br _ _ _ (by omega) (by omega)]
    interval_cases j <;> simp [glyphG, glyphBits, palLetter, bne_iff_ne]

/-- C1: for every glyph and every intra-cell offset `(ox, oy)` in 0..7 each,
the compositor's four quadrant buffers hold a set glyph pixel `(r, c)` in
exactly the quadrant `((ox+c) div 8, (oy+r) div 8)` at intra-tile position
`((ox+c) mod 8, (oy+r) mod 8)`: each nibble of each packed buffer (even
intra-tile x in the low nibble, odd x in the high nibble of byte
`py*4 + px div 2`) is the foreground index exactly when some set glyph pixel
maps there through the offset and is 0 otherwise — the union of written
pixels is exactly the glyph's set-pixel set mapped through the offset, with
nothing dropped, duplicated, or written elsewhere. The general compositor is
modelled from the spec (the source hard-codes offset (5,4)); at (5,4) its
packed buffers coincide byte-for-byte with the source `glyphQuarterTiles`. -/
theorem glyph_compositor_general_correct :
    ∀ ox oy : Nat, ox ≤ 7 → oy ≤ 7 → ∀ glyph : Nat → Nat → Bool,
      (∀ r c, r < 7 → c < 5 → glyph r c = true →
        mapsToB glyph ox oy ((ox + c) / 8) ((oy + r) / 8) ((ox + c) % 8) ((oy + r) % 8) = true) ∧
      (∀ tc tr i, tc ≤ 1 → tr ≤ 1 → i < 32 →
        pack4bpp (compPixels ox oy glyph tc tr) i &&& 15 =
          (if mapsToB glyph ox oy tc tr (2 * (i % 4)) (i / 4) = true then palLetter else 0) ∧
        pack4bpp (compPixels ox oy glyph tc tr) i >>> 4 =
          (if mapsToB glyph ox oy tc tr (2 * (i % 4) + 1) (i / 4) = true then palLetter else 0)) ∧
      (∀ rows : Nat → Nat, ∀ j, j < 32 →
        (glyphQuarterTiles rows).tl j = pack4bpp (compPixels 5 4 (glyphBits rows) 0 0) j ∧
        (glyphQuarterTiles rows).tr j = pack4bpp (compPixels 5 4 (glyphBits rows) 1 0) j ∧
        (glyphQuarterTiles rows).bl j = pack4bpp (compPixels 5 4 (glyphBits rows) 0 1) j ∧
        (glyphQuarterTiles rows).br j = pack4bpp (compPixels 5 4 (glyphBits rows) 1 1) j) := by
  intro ox oy hox hoy glyph
  refine ⟨?_, ?_, ?_⟩
  · intro r c hr hc hg
    rw [mapsToB_true_iff]
    exact ⟨r, hr, c, hc, hg, by omega, by omega⟩
  · intro tc tr i htc htr hi
    have hplo : compPixels ox oy glyph tc tr (2 * (i % 4)) (i / 4) =
        if mapsToB glyph ox oy tc tr (2 * (i % 4)) (i / 4) = true then palLetter else 0 := by
      rw [compPixels_eq, hitB_eq_mapsToB _ _ _ _ _ _ _ (by omega) (by omega)]
    have hphi : compPixels ox oy glyph tc tr (2 * (i % 4) + 1) (i / 4) =
        if mapsToB glyph ox oy tc tr (2 * (i % 4) + 1) (i / 4) = true then palLetter else 0 := by
      rw [compPixels_eq, hitB_eq_mapsToB _ _ _ _ _ _ _ (by omega) (by omega)]
    constructor
    · simp only [pack4bpp]
      rw [hplo, hphi]
      by_cases m1 : mapsToB glyph ox oy tc tr (2 * (i % 4)) (i / 4) = true <;>
        by_cases m2 : mapsToB glyph ox oy tc tr (2 * (i % 4) + 1) (i / 4) = true <;>
          simp [m1, m2, palLetter] <;> decide
    · simp only [pack4bpp]
      rw [hplo, hphi]
      by_cases m1 : mapsToB glyph ox oy tc tr (2 * (i % 4)) (i / 4) = true <;>
        by_cases m2 : mapsToB glyph ox oy tc tr (2 * (i % 4) + 1) (i / 4) = true <;>
          simp [m1, m2, palLetter] <;> decide
  · intro rows j hj
    exact glyph_ref_agree rows j hj

/-- Witness for C1 at the reference offset (5,4) and the one-pixel glyph
that is set only at row 0, column 0. -/
theorem glyph_compositor_general_correct_witness :
    ((5 : Nat) ≤ 7 ∧ (4 : Nat) ≤ 7) ∧
      ((∀ r c, r < 7 → c < 5 → (fun a b => decide (a = 0 ∧ b = 0)) r c = true →
        mapsToB (fun a b => decide (a = 0 ∧ b = 0)) 5 4
          ((5 + c) / 8) ((4 + r) / 8) ((5 + c) % 8) ((4 + r) % 8) = true) ∧
      (∀ tc tr i, tc ≤ 1 → tr ≤ 1 → i < 32 →
        pack4bpp (compPixels 5 4 (fun a b => decide (a = 0 ∧ b = 0)) tc tr) i &&& 15 =
          (if mapsToB (fun a b => decide (a = 0 ∧ b = 0)) 5 4 tc tr
              (2 * (i % 4)) (i / 4) = true then palLetter else 0) ∧
        pack4bpp (compPixels 5 4 (fun a b => decide (a = 0 ∧ b = 0)) tc tr) i >>> 4 =
          (if mapsToB (fun a b => decide (a = 0 ∧ b = 0)) 5 4 tc tr
              (2 * (i % 4) + 1) (i / 4) = true then palLetter else 0)) ∧
      (∀ rows : Nat → Nat, ∀ j, j < 32 →
        (glyphQuarterTiles rows).tl j = pack4bpp (compPixels 5 4 (glyphBits rows) 0 0) j ∧
        (glyphQuarterTiles rows).tr j = pack4bpp (compPixels 5 4 (glyphBits rows) 1 0) j ∧
        (glyphQuarterTiles rows).bl j = pack4bpp (compPixels 5 4 (glyphBits rows) 0 1) j ∧
        (glyphQuarterTiles rows).br j = pack4bpp (compPixels 5 4 (glyphBits rows) 1 1) j)) :=
  ⟨by decide, glyph_compositor_general_correct 5 4 (by decide) (by decide)
    (fun a b => decide (a = 0 ∧ b = 0))⟩

/-- Applying a concatenation of write lists is sequential application. -/
theorem applyWrites_append (l1 l2 : List Wr) (m : Nat → Nat) :
    applyWrites (l1 ++ l2) m = applyWrites l2 (applyWrites l1 m) := by
  simp [applyWrites, List.foldl_append]

/-- A byte address is untouched by a write list when it differs from both
byte addresses of every memory write in it. -/
def avoids (ws : List Wr) (a : Nat) : Prop :=
  ∀ w ∈ ws, ∀ ad, w.1 = Target.mem ad → a ≠ ad ∧ a ≠ ad + 1

/-- Untouched byte addresses keep their previous contents. -/
theorem applyWrites_avoids : ∀ (ws : List Wr) (m : Nat → Nat) (a : Nat),
    avoids ws a → applyWrites ws m a = m a := by
  intro ws
  induction ws with
  | nil =>
    intro m a _
    rfl
  | cons w t ih =>
    intro m a h
    show applyWrites t (applyWrite m w) a = m a
    rw [ih (applyWrite m w) a (fun w2 hw2 => h w2 (List.mem_cons_of_mem _ hw2))]
    rcases w with ⟨tg, v⟩
    cases tg with
    | mem ad =>
      have hd := h (Target.mem ad, v) (List.mem_cons_self _ _) ad rfl
      simp only [applyWrite]
      rw [if_neg hd.1, if_neg hd.2]
    | dispcnt => rfl
    | bgcnt k => rfl
    | hofs k => rfl
    | vofs k => rfl

/-- Reading back the 16-bit value just written at its own address. -/
theorem read16_applyWrite_self (m : Nat → Nat) (ad v : Nat) (hv : v < 65536) :
    read16 (applyWrite m (Target.mem ad, v)) ad = v := by
  simp only [read16, applyWrite]
  rw [if_pos trivial, if_neg (by omega : ¬ ad + 1 = ad), if_pos trivial]
  have h := lor_shiftLeft_eq_add (v % 256) (v / 256 % 256) 8 (by norm_num; omega)
  rw [h]
  norm_num
  omega

/-- Memory contents after a block of sequential paired-byte writes: write
`j` of the block stores the low and high bytes of `f j` at `base + j*2` and
`base + j*2 + 1`. -/
theorem writePairs (base : Nat) (f : Nat → Nat) :
    ∀ (n : Nat) (m : Nat → Nat) (i : Nat), i < 2 * n →
      applyWrites ((List.range n).map fun j => (Target.mem (base + j * 2), f j)) m (base + i) =
        (if i % 2 = 0 then f (i / 2) % 256 else f (i / 2) / 256 % 256) := by
  intro n
  induction n with
  | zero =>
    intro m i hi
    exact absurd hi (by omega)
  | succ n ih =>
    intro m i hi
    rw [List.range_succ, List.map_append, applyWrites_append]
    simp only [List.map_cons, List.map_nil]
    rcases Nat.lt_or_ge i (2 * n) with hlt | hge
    · have h1 : base + i ≠ base + n * 2 := by omega
      have h2 : base + i ≠ base + n * 2 + 1 := by omega
      simp only [applyWrites, List.foldl_cons, List.foldl_nil, applyWrite]
      rw [if_neg h1, if_neg h2]
      exact ih m i hlt
    · simp only [applyWrites, List.foldl_cons, List.foldl_nil, applyWrite]
      rcases Nat.lt_or_ge i (2 * n + 1) with hc | hc
      · have hieq : i = 2 * n := by omega
        subst hieq
        rw [if_pos (by omega : base + 2 * n = base + n * 2)]
        rw [if_pos (by omega : 2 * n % 2 = 0)]
        have he : 2 * n / 2 = n := by omega
        rw [he]
      · have hieq : i = 2 * n + 1 := by omega
        subst hieq
        rw [if_neg (by omega : ¬ base + (2 * n + 1) = base + n * 2)]
        rw [if_pos (by omega : base + (2 * n + 1) = base + n * 2 + 1)]
        rw [if_neg (by omega : ¬ (2 * n + 1) % 2 = 0)]
        have he : (2 * n + 1) / 2 = n := by omega
        rw [he]

/-- C5: `DefineTile4bpp` writes its 32-byte buffer verbatim at byte offset
`charBlock*16384 + tileIndex*32` of VRAM (byte `i` of the slot equals
`pixels[i]`, so decoding the written bytes recovers the original buffer),
and `DefineTile8bpp` likewise writes its 64-byte buffer verbatim at
`charBlock*16384 + tileIndex*64`. -/
theorem defineTile_roundtrip :
    ∀ (charBlock tileIndex tileIndex8 : Nat) (pixels pixels8 : Nat → Nat) (m : Nat → Nat),
      charBlock ≤ 3 → tileIndex ≤ 511 →
      (∀ i, i < 32 → pixels i < 256) → (∀ i, i < 64 → pixels8 i < 256) →
      (∀ i, i < 32 →
        applyWrites (DefineTile4bpp charBlock tileIndex pixels) m
          (memVRAM + charBlock * 16384 + tileIndex * 32 + i) = pixels i) ∧
      (∀ i, i < 64 →
        applyWrites (DefineTile8bpp charBlock tileIndex8 pixels8) m
          (memVRAM + charBlock * 16384 + tileIndex8 * 64 + i) = pixels8 i) := by
  intro cb ti ti8 pixels pixels8 m hcb hti hpix hpix8
  constructor
  · intro i hi
    have hdef : DefineTile4bpp cb ti pixels =
        (List.range 16).map fun j =>
          (Target.mem (memVRAM + cb * 16384 + ti * 32 + j * 2),
            pixels (j * 2) ||| (pixels (j * 2 + 1) <<< 8)) := rfl
    rw [hdef, writePairs (memVRAM + cb * 16384 + ti * 32)
      (fun j => pixels (j * 2) ||| (pixels (j * 2 + 1) <<< 8)) 16 m i (by omega)]
    have hlo := hpix (i / 2 * 2) (by omega)
    have hhi := hpix (i / 2 * 2 + 1) (by omega)
    have hadd := lor_shiftLeft_eq_add (pixels (i / 2 * 2)) (pixels (i / 2 * 2 + 1)) 8
      (by norm_num; omega)
    by_cases hp : i % 2 = 0
    · rw [if_pos hp, hadd]
      have he : i / 2 * 2 = i := by omega
      rw [he] at hlo ⊢
      norm_num
      omega
    · rw [if_neg hp, hadd]
      have he : i / 2 * 2 + 1 = i := by omega
      rw [he] at hhi ⊢
      norm_num
      omega
  · intro i hi
    have hdef : DefineTile8bpp cb ti8 pixels8 =
        (List.range 32).map fun j =>
          (Target.mem (memVRAM + cb * 16384 + ti8 * 64 + j * 2),
            pixels8 (j * 2) ||| (pixels8 (j * 2 + 1) <<< 8)) := rfl
    rw [hdef, writePairs (memVRAM + cb * 16384 + ti8 * 64)
      (fun j => pixels8 (j * 2) ||| (pixels8 (j * 2 + 1) <<< 8)) 32 m i (by omega)]
    have hlo := hpix8 (i / 2 * 2) (by omega)
    have hhi := hpix8 (i / 2 * 2 + 1) (by omega)
    have hadd := lor_shiftLeft_eq_add (pixels8 (i / 2 * 2)) (pixels8 (i / 2 * 2 + 1)) 8
      (by norm_num; omega)
    by_cases hp : i % 2 = 0
    · rw [if_pos hp, hadd]
      have he : i / 2 * 2 = i := by omega
      rw [he] at hlo ⊢
      norm_num
      omega
    · rw [if_neg hp, hadd]
      have he : i / 2 * 2 + 1 = i := by omega
      rw [he] at hhi ⊢
      norm_num
      omega

/-- Witness for C5 at character block 1, tile indices 2 and 3, pixel buffers
`i + 100` over initial memory constantly 7, checked at byte 5 (via the
theorem, then evaluated below at every byte by the hypotheses' decide). -/
theorem defineTile_roundtrip_witness :
    ((1 : Nat) ≤ 3 ∧ (2 : Nat) ≤ 511 ∧
      (∀ i, i < 32 → (fun k => k + 100) i < 256) ∧
      (∀ i, i < 64 → (fun k => k + 50) i < 256)) ∧
      ((∀ i, i < 32 →
        applyWrites (DefineTile4bpp 1 2 fun k => k + 100) (fun _ => 7)
          (memVRAM + 1 * 16384 + 2 * 32 + i) = (fun k => k + 100) i) ∧
      (∀ i, i < 64 →
        applyWrites (DefineTile8bpp 1 3 fun k => k + 50) (fun _ => 7)
          (memVRAM + 1 * 16384 + 3 * 64 + i) = (fun k => k + 50) i)) :=
  ⟨⟨by decide, by decide, by decide, by decide⟩,
    defineTile_roundtrip 1 2 3 (fun k => k + 100) (fun k => k + 50) (fun _ => 7)
      (by decide) (by decide) (by decide) (by decide)⟩

/-- The entry written by a fill (flips clear) fits in 16 bits. -/
theorem cellEntry_plain_lt (t p : Nat) (ht : t < 65536) :
    cellEntry t p false false < 65536 := by
  show t ||| ((p <<< 12) % 65536) < 65536
  have h16 : (65536 : Nat) = 2 ^ 16 := by norm_num
  rw [h16] at ht ⊢
  refine Nat.or_lt_two_pow ht ?_
  rw [← h16]
  exact Nat.mod_lt _ (by norm_num)

/-- Two memories agreeing on both bytes of a halfword read back equally. -/
theorem read16_congr2 (m1 m2 : Nat → Nat) (a : Nat)
    (h1 : m1 a = m2 a) (h2 : m1 (a + 1) = m2 (a + 1)) : read16 m1 a = read16 m2 a := by
  simp [read16, h1, h2]

/-- One fill row: after writing cells `(x, y+row) .. (x+w'-1, y+row)` in
order, reading back any of those cells yields the fill entry. -/
theorem fillRow_read (sb x y t p row : Nat) (ht : t < 65536) (hyr : y + row < 32) :
    ∀ w' : Nat, x + w' ≤ 32 → ∀ (m : Nat → Nat) (col : Nat), col < w' →
      read16 (applyWrites ((List.range w').flatMap
          fun c => SetTile sb ((x + c) % 256) ((y + row) % 256) t p false false) m)
        (cellAddr sb (x + col) (y + row)) = cellEntry t p false false := by
  intro w'
  induction w' with
  | zero =>
    intro _ m col hcol
    exact absurd hcol (by omega)
  | succ w' ih =>
    intro hxw m col hcol
    rw [List.range_succ, List.flatMap_append, applyWrites_append]
    have hsingle : ([w'].flatMap fun c =>
        SetTile sb ((x + c) % 256) ((y + row) % 256) t p false false) =
        SetTile sb ((x + w') % 256) ((y + row) % 256) t p false false := by
      simp
    rw [hsingle]
    have hxm : (x + w') % 256 = x + w' := Nat.mod_eq_of_lt (by omega)
    have hym : (y + row) % 256 = y + row := Nat.mod_eq_of_lt (by omega)
    rcases Nat.lt_or_ge col w' with hc | hc
    · have hpass : ∀ a2, (a2 = cellAddr sb (x + col) (y + row) ∨
          a2 = cellAddr sb (x + col) (y + row) + 1) →
          applyWrites (SetTile sb ((x + w') % 256) ((y + row) % 256) t p false false)
            (applyWrites ((List.range w').flatMap
              fun c => SetTile sb ((x + c) % 256) ((y + row) % 256) t p false false) m) a2 =
          applyWrites ((List.range w').flatMap
            fun c => SetTile sb ((x + c) % 256) ((y + row) % 256) t p false false) m a2 := by
        intro a2 ha2
        apply applyWrites_avoids
        intro wmem hw ad had
        simp only [SetTile, List.mem_singleton] at hw
        subst hw
        have had2 : Target.mem (cellAddr sb ((x + w') % 256) ((y + row) % 256)) =
            Target.mem ad := had
        injection had2 with hadeq
        subst hadeq
        rw [hxm, hym]
        rcases ha2 with ha2 | ha2 <;> subst ha2 <;> constructor <;>
          (simp only [cellAddr, memVRAM]; omega)
      rw [read16_congr2 _ _ _ (hpass _ (Or.inl rfl)) (hpass _ (Or.inr rfl))]
      exact ih (by omega) m col hc
    · have hceq : col = w' := by omega
      subst hceq
      have haddr : cellAddr sb ((x + col) % 256) ((y + row) % 256) =
          cellAddr sb (x + col) (y + row) := by
        rw [hxm, hym]
      simp only [SetTile, applyWrites, List.foldl_cons, List.foldl_nil]
      rw [haddr]
      exact read16_applyWrite_self _ _ _ (cellEntry_plain_lt t p ht)

/-- Reading back any cell of the filled rectangle yields the fill entry. -/
theorem fill_read (sb x y w t p : Nat) (ht : t < 65536) (hxw : x + w ≤ 32) :
    ∀ h : Nat, y + h ≤ 32 → ∀ (m : Nat → Nat) (row col : Nat), row < h → col < w →
      read16 (applyWrites (FillTiled sb x y w h t p) m)
        (cellAddr sb (x + col) (y + row)) = cellEntry t p false false := by
  intro h
  induction h with
  | zero =>
    intro _ m row col hrow _
    exact absurd hrow (by omega)
  | succ h ih =>
    intro hyh m row col hrow hcol
    have hsplit : FillTiled sb x y w (h + 1) t p = FillTiled sb x y w h t p ++
        ((List.range w).flatMap fun c =>
          SetTile sb ((x + c) % 256) ((y + h) % 256) t p false false) := by
      simp [FillTiled, List.range_succ]
    rw [hsplit, applyWrites_append]
    rcases Nat.lt_or_ge row h with hr | hr
    · have hpass : ∀ a2, (a2 = cellAddr sb (x + col) (y + row) ∨
          a2 = cellAddr sb (x + col) (y + row) + 1) →
          applyWrites ((List.range w).flatMap fun c =>
              SetTile sb ((x + c) % 256) ((y + h) % 256) t p false false)
            (applyWrites (FillTiled sb x y w h t p) m) a2 =
          applyWrites (FillTiled sb x y w h t p) m a2 := by
        intro a2 ha2
        apply applyWrites_avoids
        intro wmem hw ad had
        rw [List.mem_flatMap] at hw
        obtain ⟨c, hcmem, hwin⟩ := hw
        rw [List.mem_range] at hcmem
        simp only [SetTile, List.mem_singleton] at hwin
        subst hwin
        have had2 : Target.mem (cellAddr sb ((x + c) % 256) ((y + h) % 256)) =
            Target.mem ad := had
        injection had2 with hadeq
        subst hadeq
        have hxm : (x + c) % 256 = x + c := Nat.mod_eq_of_lt (by omega)
        have hym : (y + h) % 256 = y + h := Nat.mod_eq_of_lt (by omega)
        rw [hxm, hym]
        rcases ha2 with ha2 | ha2 <;> subst ha2 <;> constructor <;>
          (simp only [cellAddr, memVRAM]; omega)
      rw [read16_congr2 _ _ _ (hpass _ (Or.inl rfl)) (hpass _ (Or.inr rfl))]
      exact ih (by omega) m row col hr hcol
    · have hre : row = h := by omega
      subst hre
      exact fillRow_read sb x y t p row ht (by omega) w hxw
        (applyWrites (FillTiled sb x y w row t p) m) col hcol

/-- Every byte address outside the filled rectangle's cells is unchanged. -/
theorem fill_untouched (sb x y w h t p : Nat) (m : Nat → Nat) (a : Nat)
    (hxw : x + w ≤ 32) (hyh : y + h ≤ 32)
    (hout : ∀ row col, row < h → col < w →
      a ≠ cellAddr sb (x + col) (y + row) ∧ a ≠ cellAddr sb (x + col) (y + row) + 1) :
    applyWrites (FillTiled sb x y w h t p) m a = m a := by
  apply applyWrites_avoids
  intro wmem hw ad had
  simp only [FillTiled] at hw
  rw [List.mem_flatMap] at hw
  obtain ⟨row, hrowmem, hw⟩ := hw
  rw [List.mem_range] at hrowmem
  rw [List.mem_flatMap] at hw
  obtain ⟨c, hcmem, hwin⟩ := hw
  rw [List.mem_range] at hcmem
  simp only [SetTile, List.mem_singleton] at hwin
  subst hwin
  have had2 : Target.mem (cellAddr sb ((x + c) % 256) ((y + row) % 256)) =
      Target.mem ad := had
  injection had2 with hadeq
  subst hadeq
  have hxm : (x + c) % 256 = x + c := Nat.mod_eq_of_lt (by omega)
  have hym : (y + row) % 256 = y + row := Nat.mod_eq_of_lt (by omega)
  rw [hxm, hym]
  exact hout row c hrowmem hcmem

/-- Length of a flat map over a range with constant block length. -/
theorem length_flatMap_const (k : Nat) (f : Nat → List Wr) (hf : ∀ j, (f j).length = k) :
    ∀ n, ((List.range n).flatMap f).length = n * k := by
  intro n
  induction n with
  | zero => simp
  | succ n ih =>
    rw [List.range_succ, List.flatMap_append, List.length_append, ih]
    have hlast : ([n].flatMap f).length = k := by simp [hf n]
    rw [hlast]
    ring

/-- A fill performs exactly one 16-bit write per cell of the rectangle. -/
theorem fillTiled_length (sb x y w h t p : Nat) :
    (FillTiled sb x y w h t p).length = w * h := by
  have hrow : ∀ row, ((List.range w).flatMap fun c =>
      SetTile sb ((x + c) % 256) ((y + row) % 256) t p false false).length = w := by
    intro row
    have hh := length_flatMap_const 1
      (fun c => SetTile sb ((x + c) % 256) ((y + row) % 256) t p false false) (fun j => rfl) w
    simpa using hh
  have htot := length_flatMap_const w (fun row => (List.range w).flatMap fun c =>
      SetTile sb ((x + c) % 256) ((y + row) % 256) t p false false) hrow h
  calc (FillTiled sb x y w h t p).length = h * w := htot
    _ = w * h := Nat.mul_comm h w

/-- C4: for an in-bounds rectangle, after `FillTiled` every cell of the
rectangle reads back as the entry encoding the tile index and palette with
both flips clear, every byte address outside the rectangle's cells is
unchanged, and exactly one 16-bit write is performed per cell (`w*h` writes
in total). -/
theorem fillTiled_correct :
    ∀ (screenBlock x y w h tileIndex palette : Nat) (m : Nat → Nat),
      x + w ≤ 32 → y + h ≤ 32 → tileIndex < 65536 → palette < 256 →
      (∀ row col, row < h → col < w →
        read16 (applyWrites (FillTiled screenBlock x y w h tileIndex palette) m)
          (cellAddr screenBlock (x + col) (y + row)) =
            cellEntry tileIndex palette false false) ∧
      (∀ a, (∀ row col, row < h → col < w →
          a ≠ cellAddr screenBlock (x + col) (y + row) ∧
            a ≠ cellAddr screenBlock (x + col) (y + row) + 1) →
        applyWrites (FillTiled screenBlock x y w h tileIndex palette) m a = m a) ∧
      (FillTiled screenBlock x y w h tileIndex palette).length = w * h := by
  intro sb x y w h t p m hxw hyh ht hp
  refine ⟨?_, ?_, ?_⟩
  · intro row col hrow hcol
    exact fill_read sb x y w t p ht hxw h hyh m row col hrow hcol
  · intro a hout
    exact fill_untouched sb x y w h t p m a hxw hyh hout
  · exact fillTiled_length sb x y w h t p

/-- Witness for C4 at screen block 8, rectangle (1,2) of width 2 and height
2, tile 5, palette 3, over initially zero memory. -/
theorem fillTiled_correct_witness :
    ((1 : Nat) + 2 ≤ 32 ∧ (2 : Nat) + 2 ≤ 32 ∧ (5 : Nat) < 65536 ∧ (3 : Nat) < 256) ∧
      ((∀ row col, row < 2 → col < 2 →
        read16 (applyWrites (FillTiled 8 1 2 2 2 5 3) fun _ => 0)
          (cellAddr 8 (1 + col) (2 + row)) = cellEntry 5 3 false false) ∧
      (∀ a, (∀ row col, row < 2 → col < 2 →
          a ≠ cellAddr 8 (1 + col) (2 + row) ∧ a ≠ cellAddr 8 (1 + col) (2 + row) + 1) →
        applyWrites (FillTiled 8 1 2 2 2 5 3) (fun _ => 0) a = (fun _ => 0) a) ∧
      (FillTiled 8 1 2 2 2 5 3).length = 2 * 2) :=
  ⟨⟨by decide, by decide, by decide, by decide⟩,
    fillTiled_correct 8 1 2 2 2 5 3 (fun _ => 0) (by decide) (by decide) (by decide) (by decide)⟩

end TinyGBA
